import Mathlib

/-! Verification development for the geometry helper library
(`geometry_helpers.py` of mil_common).

The Python source operates on numpy float arrays.  We model the arithmetic
over the exact reals: numpy 1-D arrays of fixed length become tuples, numpy
matrices become Mathlib matrices, `np.linalg.norm` becomes the square root of
the sum of squares, and numpy's elementwise operations are spelled out
componentwise.  Division by zero questions are treated in a separate model
(`NPF`) that tracks non-finite results the way numpy float64 produces them.
-/

open Real

namespace Geom

/-- A 3-component float array (numpy shape (3,)). -/
abbrev Vec3 : Type := ℝ × ℝ × ℝ

/-- A 4-component quaternion array in (x, y, z, w) order (ROS convention). -/
abbrev Vec4 : Type := ℝ × ℝ × ℝ × ℝ

/-- Value of np.linalg.norm on a 3-vector: square root of the sum of squares. -/
noncomputable def norm3 (v : Vec3) : ℝ :=
  Real.sqrt (v.1 ^ 2 + v.2.1 ^ 2 + v.2.2 ^ 2)

/-- Value of np.linalg.norm on a 4-vector. -/
noncomputable def norm4 (q : Vec4) : ℝ :=
  Real.sqrt (q.1 ^ 2 + q.2.1 ^ 2 + q.2.2.1 ^ 2 + q.2.2.2 ^ 2)

/-- Value of np.dot on two 3-vectors. -/
def dot3 (a b : Vec3) : ℝ := a.1 * b.1 + a.2.1 * b.2.1 + a.2.2 * b.2.2

/-- Value of np.cross on two 3-vectors. -/
def cross3 (a b : Vec3) : Vec3 :=
  (a.2.1 * b.2.2 - a.2.2 * b.2.1, a.2.2 * b.1 - a.1 * b.2.2,
   a.1 * b.2.1 - a.2.1 * b.1)

/-- Condition tested by np.isclose(a, b, rtol=1e-05, atol):
the default relative tolerance 1e-05 and the given absolute tolerance. -/
abbrev isclose (a b atol : ℝ) : Prop := |a - b| ≤ atol + 1 / 100000 * |b|

/-- Source `normalize(vector)` (geometry_helpers.py line 83):
`vector / np.linalg.norm(vector)`, elementwise. -/
noncomputable def normalize (vector : Vec3) : Vec3 :=
  (vector.1 / norm3 vector, vector.2.1 / norm3 vector, vector.2.2 / norm3 vector)

/-- Source `skew_symmetric_cross(a)` (line 66): the literal 3x3 array built by
the source (the float32 cast is the identity in the exact-real model). -/
def skew_symmetric_cross (a : Vec3) : Matrix (Fin 3) (Fin 3) ℝ :=
  Matrix.of ![![0, -a.2.2, a.2.1], ![a.2.2, 0, -a.1], ![-a.2.1, a.1, 0]]

/-- Source `deskew(A)` (line 79): extracts `(A[2,1], A[0,2], A[1,0])`. -/
def deskew (A : Matrix (Fin 3) (Fin 3) ℝ) : Vec3 := (A 2 1, A 0 2, A 1 0)

/-- Source `make_rotation(vector_a, vector_b)` (lines 22-63).  The reflection
branch of the source executes `R[:, 3] *= -1`, an out-of-bounds column access
on a 3x3 numpy array that raises IndexError; we model that branch as `none`.
`np.eye(3)` is the identity matrix, and `R[2, 2] *= -1` applied to the
identity yields the explicit diagonal matrix written in the antiparallel
branch below.  `np.linalg.matrix_power(M, 2)` is `M ^ 2`. -/
noncomputable def make_rotation (vector_a vector_b : Vec3) :
    Option (Matrix (Fin 3) (Fin 3) ℝ) :=
  let unit_a := normalize vector_a
  let unit_b := normalize vector_b
  let v := cross3 unit_a unit_b
  let s := norm3 v
  let c := dot3 unit_a unit_b
  let skew_cross := skew_symmetric_cross v
  let skew_squared := skew_cross ^ 2
  if isclose c 1 (1 / 10000) then some 1
  else if isclose c (-1) (1 / 10000) then
    some (Matrix.of ![![1, 0, 0], ![0, 1, 0], ![0, 0, -1]])
  else
    let normalization := (1 - c) / s ^ 2
    let R := 1 + skew_cross + normalization • skew_squared
    if R.det < 0 then none else some R

/-- Source `clip_norm(vector, lower_bound, upper_bound)` (lines 102-116).
The pass-through branch returns `np.copy(vector)`, which holds the same
component values as `vector`; the pure value model returns the values. -/
noncomputable def clip_norm (vector : Vec3) (lower_bound upper_bound : ℝ) : Vec3 :=
  let norm := norm3 vector
  if lower_bound < norm ∧ norm < upper_bound then vector
  else if norm < lower_bound then
    (vector.1 * lower_bound / norm, vector.2.1 * lower_bound / norm,
     vector.2.2 * lower_bound / norm)
  else
    (vector.1 * upper_bound / norm, vector.2.1 * upper_bound / norm,
     vector.2.2 * upper_bound / norm)

/-- External dependency tf.transformations.quaternion_multiply(q1, q0):
the Hamilton product in (x, y, z, w) component order, exactly the four
polynomial components computed by that library function. -/
def quaternion_multiply (quaternion1 quaternion0 : Vec4) : Vec4 :=
  let x0 := quaternion0.1
  let y0 := quaternion0.2.1
  let z0 := quaternion0.2.2.1
  let w0 := quaternion0.2.2.2
  let x1 := quaternion1.1
  let y1 := quaternion1.2.1
  let z1 := quaternion1.2.2.1
  let w1 := quaternion1.2.2.2
  (x1 * w0 + y1 * z0 - z1 * y0 + w1 * x0,
   -x1 * z0 + y1 * w0 + z1 * x0 + w1 * y0,
   x1 * y0 - y1 * x0 + z1 * w0 + w1 * z0,
   -x1 * x0 - y1 * y0 - z1 * z0 + w1 * w0)

/-- Source `rotate_vect_by_quat(v, q)` (lines 8-19).  The input `v` is a
4-component pure-quaternion array (tf's quaternion_multiply unpacks four
components from it).  `v[1:] *= -1` negates the components at indices 1, 2
and 3 of the product in place, and `np.array(v)[:3]` keeps indices 0, 1, 2. -/
def rotate_vect_by_quat (v q : Vec4) : Vec3 :=
  let cq : Vec4 := (-q.1, -q.2.1, -q.2.2.1, q.2.2.2)
  let cq_v := quaternion_multiply cq v
  let v2 := quaternion_multiply cq_v q
  let v3 : Vec4 := (v2.1, -v2.2.1, -v2.2.2.1, -v2.2.2.2)
  (v3.1, v3.2.1, v3.2.2.1)

/-- Modelled from the spec claim wording for rotate_vect_by_quat: form the
same product `cq * v * q` and return its vector part with all three vector
components (indices 0, 1, 2 in (x, y, z, w) order) negated. -/
def rotate_vect_by_quat_claimed (v q : Vec4) : Vec3 :=
  let cq : Vec4 := (-q.1, -q.2.1, -q.2.2.1, q.2.2.2)
  let p := quaternion_multiply (quaternion_multiply cq v) q
  (-p.1, -p.2.1, -p.2.2.1)

/-- External dependency tf.transformations.unit_vector(q) for a 4-vector:
the array divided by its Euclidean norm. -/
noncomputable def unit_vector (q : Vec4) : Vec4 :=
  (q.1 / norm4 q, q.2.1 / norm4 q, q.2.2.1 / norm4 q, q.2.2.2 / norm4 q)

/-- Source `quat_to_rotvec(q)` (lines 132-145).  The first test is
`np.all(np.isclose(q[0:3], 0))` with numpy's default atol=1e-08 (and the
rtol term vanishing against 0); then the sign flip rebinds q to `-q`; then
`q = trans.unit_vector(q)`; `angle = np.arccos(q[3]) * 2`;
`norm = np.linalg.norm(q)` — the norm of the whole renormalized quaternion —
and `axis = q[0:3] / norm`; the result is `axis * angle`. -/
noncomputable def quat_to_rotvec (q : Vec4) : Vec3 :=
  if isclose q.1 0 (1 / 100000000) ∧ isclose q.2.1 0 (1 / 100000000) ∧
      isclose q.2.2.1 0 (1 / 100000000) then
    (0, 0, 0)
  else
    let q1 : Vec4 := if q.2.2.2 < 0 then (-q.1, -q.2.1, -q.2.2.1, -q.2.2.2) else q
    let q2 := unit_vector q1
    let angle := Real.arccos q2.2.2.2 * 2
    let norm := norm4 q2
    let axis : Vec3 := (q2.1 / norm, q2.2.1 / norm, q2.2.2.1 / norm)
    (axis.1 * angle, axis.2.1 * angle, axis.2.2 * angle)

/-- Helper for indexing a Vec3 by a Fin 3 (numpy t[j] for j < 3). -/
def vecIdx (t : Vec3) : Fin 3 → ℝ := ![t.1, t.2.1, t.2.2]

/-- Source `compose_transformation(R, t)` (lines 87-93), modelled as the
source's assignment sequence on `np.zeros((4, 4))`: first the top-left 3x3
block is overwritten with R, then the first three entries of row 3 with t,
then entry (3,3) with 1.0. -/
def compose_transformation (R : Matrix (Fin 3) (Fin 3) ℝ) (t : Vec3) :
    Matrix (Fin 4) (Fin 4) ℝ :=
  let transformation0 : Matrix (Fin 4) (Fin 4) ℝ := 0
  let transformation1 : Matrix (Fin 4) (Fin 4) ℝ := Matrix.of fun i j =>
    if hij : i.val < 3 ∧ j.val < 3 then R ⟨i.val, hij.1⟩ ⟨j.val, hij.2⟩
    else transformation0 i j
  let transformation2 : Matrix (Fin 4) (Fin 4) ℝ := Matrix.of fun i j =>
    if hj : i.val = 3 ∧ j.val < 3 then vecIdx t ⟨j.val, hj.2⟩
    else transformation1 i j
  Matrix.of fun i j => if i.val = 3 ∧ j.val = 3 then 1 else transformation2 i j

/-! Model of numpy float64 division-by-zero behaviour.  numpy float division
by zero does not raise an exception: it emits a RuntimeWarning and yields a
non-finite value (nan for 0/0, signed infinity otherwise).  The claim about
`normalize` on the zero vector is about exactly this behaviour, so we track
finiteness explicitly with one extra value. -/

/-- A numpy float64 value: either a finite real or a non-finite value
(nan or a signed infinity; the distinction does not matter here). -/
inductive NPF
  | fin : ℝ → NPF
  | nonfinite : NPF

/-- Addition of numpy floats (finite + finite is finite). -/
def NPF.add : NPF → NPF → NPF
  | NPF.fin a, NPF.fin b => NPF.fin (a + b)
  | _, _ => NPF.nonfinite

/-- Multiplication of numpy floats (ignoring inf*0 subtleties, which the
zero-vector scenario never reaches). -/
def NPF.mul : NPF → NPF → NPF
  | NPF.fin a, NPF.fin b => NPF.fin (a * b)
  | _, _ => NPF.nonfinite

/-- Division of numpy floats: dividing by zero yields a non-finite value
(nan when the numerator is 0, an infinity otherwise) and only warns. -/
noncomputable def NPF.div : NPF → NPF → NPF
  | NPF.fin a, NPF.fin b => if b = 0 then NPF.nonfinite else NPF.fin (a / b)
  | _, _ => NPF.nonfinite

/-- Square root of a numpy float (nan, hence non-finite, on negatives). -/
noncomputable def NPF.sqrt : NPF → NPF
  | NPF.fin a => if a < 0 then NPF.nonfinite else NPF.fin (Real.sqrt a)
  | NPF.nonfinite => NPF.nonfinite

/-- A 3-vector of numpy floats. -/
abbrev NPVec3 : Type := NPF × NPF × NPF

/-- Value of np.linalg.norm on a 3-vector of numpy floats. -/
noncomputable def normNPF (v : NPVec3) : NPF :=
  NPF.sqrt (NPF.add (NPF.mul v.1 v.1) (NPF.add (NPF.mul v.2.1 v.2.1) (NPF.mul v.2.2 v.2.2)))

/-- Source `normalize(vector)` over the numpy float model: the same
`vector / np.linalg.norm(vector)`, but tracking non-finite results. -/
noncomputable def normalizeNPF (vector : NPVec3) : NPVec3 :=
  (NPF.div vector.1 (normNPF vector),
   NPF.div vector.2.1 (normNPF vector),
   NPF.div vector.2.2 (normNPF vector))

/-! Heap model for the mutation claims.  numpy arrays are mutable objects;
to state that the library does not mutate its arguments we model the
argument arrays as cells of an explicit heap (a list of float lists), each
numpy operation that builds a new array as an allocation at the end of the
heap, and the source's single in-place update (`v[1:] *= -1` in
rotate_vect_by_quat, applied to the freshly computed product) as a write. -/

/-- A numpy 1-D float array, as a list of reals. -/
abbrev Arr : Type := List ℝ

/-- The heap: allocated arrays, addressed by list position. -/
abbrev Heap : Type := List Arr

/-- Read the array stored at reference r (empty array if unallocated). -/
def readH (h : Heap) (r : Nat) : Arr := h.getD r []

/-- Allocate a fresh array, returning the new heap and the fresh reference. -/
def allocH (h : Heap) (a : Arr) : Heap × Nat := (h ++ [a], h.length)

/-- Overwrite the array stored at reference r in place. -/
def writeH (h : Heap) (r : Nat) (a : Arr) : Heap := h.set r a

/-- Component i of an array (numpy a[i]). -/
def getF (a : Arr) (i : Nat) : ℝ := a.getD i 0

/-- Value of np.linalg.norm on an array. -/
noncomputable def normArr (a : Arr) : ℝ := Real.sqrt ((a.map fun x => x ^ 2).sum)

/-- The tf.transformations.quaternion_multiply formula on arrays; the library
allocates and returns a fresh numpy array. -/
def quaternion_multiply_arr (q1 q0 : Arr) : Arr :=
  [getF q1 0 * getF q0 3 + getF q1 1 * getF q0 2 - getF q1 2 * getF q0 1 +
     getF q1 3 * getF q0 0,
   -getF q1 0 * getF q0 2 + getF q1 1 * getF q0 3 + getF q1 2 * getF q0 0 +
     getF q1 3 * getF q0 1,
   getF q1 0 * getF q0 1 - getF q1 1 * getF q0 0 + getF q1 2 * getF q0 3 +
     getF q1 3 * getF q0 2,
   -getF q1 0 * getF q0 0 - getF q1 1 * getF q0 1 - getF q1 2 * getF q0 2 +
     getF q1 3 * getF q0 3]

/-- Source rotate_vect_by_quat over the heap model.  `np.array([...])` for cq
allocates; each quaternion_multiply allocates; `v[1:] *= -1` writes in place
into the array holding the second product (the local rebinding of the name v);
`np.array(v)[:3]` copies into a fresh result array. -/
def rotate_vect_by_quat_heap (h : Heap) (rv rq : Nat) : Heap × Nat :=
  let q := readH h rq
  let v := readH h rv
  let s1 := allocH h [-(getF q 0), -(getF q 1), -(getF q 2), getF q 3]
  let cq := readH s1.1 s1.2
  let s2 := allocH s1.1 (quaternion_multiply_arr cq v)
  let cq_v := readH s2.1 s2.2
  let s3 := allocH s2.1 (quaternion_multiply_arr cq_v q)
  let p := readH s3.1 s3.2
  let h4 := writeH s3.1 s3.2 [getF p 0, -(getF p 1), -(getF p 2), -(getF p 3)]
  let p2 := readH h4 s3.2
  allocH h4 (p2.take 3)

/-- Source clip_norm over the heap model: the pass-through branch allocates a
copy (np.copy); the rescaling branches allocate a temporary for
`vector * bound` and a fresh array for the division by the norm. -/
noncomputable def clip_norm_heap (h : Heap) (rv : Nat) (lower_bound upper_bound : ℝ) :
    Heap × Nat :=
  let v := readH h rv
  let norm := normArr v
  if lower_bound < norm ∧ norm < upper_bound then allocH h v
  else if norm < lower_bound then
    let t := allocH h (v.map fun x => x * lower_bound)
    allocH t.1 ((readH t.1 t.2).map fun x => x / norm)
  else
    let t := allocH h (v.map fun x => x * upper_bound)
    allocH t.1 ((readH t.1 t.2).map fun x => x / norm)

/-- Source quat_to_rotvec over the heap model: the sign flip `q = -q` rebinds
the local name to a freshly allocated negated array (no in-place update), as
do trans.unit_vector, the slice division `q[0:3] / norm` and `axis * angle`. -/
noncomputable def quat_to_rotvec_heap (h : Heap) (rq : Nat) : Heap × Nat :=
  let q := readH h rq
  if |getF q 0| ≤ 1 / 100000000 ∧ |getF q 1| ≤ 1 / 100000000 ∧
      |getF q 2| ≤ 1 / 100000000 then
    allocH h [0, 0, 0]
  else
    let s1 := if getF q 3 < 0 then allocH h (q.map fun x => -x) else (h, rq)
    let q1 := readH s1.1 s1.2
    let s2 := allocH s1.1 (q1.map fun x => x / normArr q1)
    let q2 := readH s2.1 s2.2
    let angle := Real.arccos (getF q2 3) * 2
    let nrm := normArr q2
    let s3 := allocH s2.1 ((q2.take 3).map fun x => x / nrm)
    let axis := readH s3.1 s3.2
    allocH s3.1 (axis.map fun x => x * angle)

end Geom

namespace Geom

/-! Shared helper lemmas. -/

/-- A nonzero 3-vector has positive sum of squared components. -/
theorem normSq3_pos (v : Vec3) (hv : v ≠ 0) : 0 < v.1 ^ 2 + v.2.1 ^ 2 + v.2.2 ^ 2 := by
  obtain ⟨x, y, z⟩ := v
  rcases lt_or_eq_of_le (by positivity : (0:ℝ) ≤ x ^ 2 + y ^ 2 + z ^ 2) with h | h
  · exact h
  · exfalso
    apply hv
    have hx : x = 0 := by nlinarith [sq_nonneg x, sq_nonneg y, sq_nonneg z]
    have hy : y = 0 := by nlinarith [sq_nonneg x, sq_nonneg y, sq_nonneg z]
    have hz : z = 0 := by nlinarith [sq_nonneg x, sq_nonneg y, sq_nonneg z]
    simp [Prod.ext_iff, hx, hy, hz]

/-- A nonzero 3-vector has positive numpy norm. -/
theorem norm3_pos (v : Vec3) (hv : v ≠ 0) : 0 < norm3 v :=
  Real.sqrt_pos.mpr (normSq3_pos v hv)

/-- The square of the numpy norm of a 3-vector is the sum of squares. -/
theorem sq_norm3 (v : Vec3) : norm3 v ^ 2 = v.1 ^ 2 + v.2.1 ^ 2 + v.2.2 ^ 2 :=
  Real.sq_sqrt (by positivity)

/-- Normalizing a nonzero vector yields a vector of unit sum of squares. -/
theorem normalize_unit (v : Vec3) (hv : v ≠ 0) :
    (normalize v).1 ^ 2 + (normalize v).2.1 ^ 2 + (normalize v).2.2 ^ 2 = 1 := by
  have h0 := normSq3_pos v hv
  have hn := norm3_pos v hv
  have hs := sq_norm3 v
  simp only [normalize]
  field_simp
  linarith

/-! Claim C7. -/

/-- C7: for every 3-component vector v, deskew (skew_symmetric_cross v) = v
exactly: the skew matrix stores (v0, v1, v2) at entries (2,1), (0,2), (1,0)
and deskew extracts exactly those entries. -/
theorem deskew_skew_symmetric_cross (v : Vec3) :
    deskew (skew_symmetric_cross v) = v := by
  obtain ⟨x, y, z⟩ := v
  simp [deskew, skew_symmetric_cross]

/-! Claim C9. -/

/-- C9: compose_transformation R t is the 4x4 matrix with R in the top-left
3x3 block, t in the first three entries of the last row, 1.0 at the
bottom-right corner, and zeros in the first three entries of the last
column. -/
theorem compose_transformation_layout (R : Matrix (Fin 3) (Fin 3) ℝ) (t : Vec3) :
    (∀ i j : Fin 3, compose_transformation R t i.castSucc j.castSucc = R i j) ∧
    (∀ j : Fin 3, compose_transformation R t 3 j.castSucc = vecIdx t j) ∧
    compose_transformation R t 3 3 = 1 ∧
    (∀ i : Fin 3, compose_transformation R t i.castSucc 3 = 0) := by
  refine ⟨fun i j => ?_, fun j => ?_, ?_, fun i => ?_⟩
  · have hi : (i.castSucc : Fin 4).val < 3 := by simp
    have hj : (j.castSucc : Fin 4).val < 3 := by simp
    have hi3 : ¬ (i.castSucc : Fin 4).val = 3 := by omega
    simp only [compose_transformation, Matrix.of_apply]
    rw [if_neg (by exact fun h => hi3 h.1), dif_neg (by exact fun h => hi3 h.1),
      dif_pos ⟨hi, hj⟩]
    congr 1
  · have hj : (j.castSucc : Fin 4).val < 3 := by simp
    simp only [compose_transformation, Matrix.of_apply]
    rw [if_neg (by exact fun h => by omega), dif_pos ⟨rfl, hj⟩]
    exact congrArg (vecIdx t) (Fin.ext (by simp))
  · have h3 : ((3 : Fin 4)).val = 3 := rfl
    simp only [compose_transformation, Matrix.of_apply]
    rw [if_pos ⟨h3, h3⟩]
  · have hi : (i.castSucc : Fin 4).val < 3 := by simp
    have hi3 : ¬ (i.castSucc : Fin 4).val = 3 := by omega
    simp only [compose_transformation, Matrix.of_apply]
    rw [if_neg (by exact fun h => hi3 h.1), dif_neg (by exact fun h => hi3 h.1),
      dif_neg (by exact fun h => by omega)]
    simp

/-! Claim C2. -/

/-- C2 counterexample: at v = (1,0,0,0) (the pure quaternion for the x axis)
and q = (0,1,0,0) (a 180 degree rotation about y), the source returns
(-1, 0, 0) while the claimed formula — the vector part of cq*v*q with all
three vector components negated — gives (1, 0, 0).  The first component of
the product is returned without negation, because `v[1:] *= -1` negates
indices 1, 2, 3 (y, z and the scalar w), not the three vector components. -/
theorem rotate_vect_by_quat_claim_false :
    rotate_vect_by_quat (1, 0, 0, 0) (0, 1, 0, 0) = (-1, 0, 0) ∧
    rotate_vect_by_quat_claimed (1, 0, 0, 0) (0, 1, 0, 0) = (1, 0, 0) ∧
    rotate_vect_by_quat (1, 0, 0, 0) (0, 1, 0, 0) ≠
      rotate_vect_by_quat_claimed (1, 0, 0, 0) (0, 1, 0, 0) := by
  refine ⟨?_, ?_, ?_⟩ <;>
    norm_num [rotate_vect_by_quat, rotate_vect_by_quat_claimed,
      quaternion_multiply, Prod.ext_iff]

/-- C2 amended: rotate_vect_by_quat forms cq = (-q.x, -q.y, -q.z, q.w),
takes the product p = cq * v * q, negates the components at indices 1, 2, 3
(y, z and the scalar w) of the 4-component product, then truncates to the
first three components; i.e. it returns (p.x, -p.y, -p.z) — the x component
of the product is not negated (the negated scalar is discarded). -/
theorem rotate_vect_by_quat_eq (v q : Vec4) :
    rotate_vect_by_quat v q =
      ((quaternion_multiply (quaternion_multiply (-q.1, -q.2.1, -q.2.2.1, q.2.2.2) v) q).1,
       -(quaternion_multiply (quaternion_multiply (-q.1, -q.2.1, -q.2.2.1, q.2.2.2) v) q).2.1,
       -(quaternion_multiply (quaternion_multiply (-q.1, -q.2.1, -q.2.2.1, q.2.2.2) v) q).2.2.1) :=
  rfl

/-! Claim C4. -/

/-- Scaling a 3-vector by a nonnegative factor scales its numpy norm. -/
theorem norm3_scale (k : ℝ) (v : Vec3) (hk : 0 ≤ k) :
    norm3 (k * v.1, k * v.2.1, k * v.2.2) = k * norm3 v := by
  unfold norm3
  rw [show (k * v.1) ^ 2 + (k * v.2.1) ^ 2 + (k * v.2.2) ^ 2 =
      k ^ 2 * (v.1 ^ 2 + v.2.1 ^ 2 + v.2.2 ^ 2) by ring,
    Real.sqrt_mul (sq_nonneg k), Real.sqrt_sq hk]

/-- C4 counterexample: at v = (1,0,0), lower = 1, upper = 2 the norm of v
equals the lower bound exactly, yet clip_norm does not return v unchanged:
both strict comparisons fail and the final else branch rescales v to norm
upper, returning (2, 0, 0). -/
theorem clip_norm_boundary_claim_false :
    norm3 ((1, 0, 0) : Vec3) = 1 ∧
    clip_norm (1, 0, 0) 1 2 = ((2 : ℝ), (0 : ℝ), (0 : ℝ)) ∧
    clip_norm (1, 0, 0) 1 2 ≠ ((1, 0, 0) : Vec3) := by
  have h1 : norm3 ((1, 0, 0) : Vec3) = 1 := by
    unfold norm3
    norm_num
  have h2 : clip_norm (1, 0, 0) 1 2 = ((2 : ℝ), (0 : ℝ), (0 : ℝ)) := by
    simp only [clip_norm, h1]
    norm_num
  refine ⟨h1, h2, ?_⟩
  rw [h2]
  norm_num [Prod.ext_iff]

/-- C4 amended: for nonzero v and 0 < lower <= upper, clip_norm returns v
unchanged when lower < norm < upper, rescales to norm exactly lower
(by the positive factor lower/norm) when norm < lower, rescales to norm
exactly upper when norm > upper, and returns v unchanged when norm = upper;
but when norm = lower (and lower < upper) the else branch applies and the
result is rescaled to norm exactly upper — not returned unchanged.  The
zero vector is excluded: there the source divides by norm 0 (the
DivideByZero case of the spec's error taxonomy). -/
theorem clip_norm_cases (v : Vec3) (lower_bound upper_bound : ℝ) (hv : v ≠ 0)
    (hlb : 0 < lower_bound) (hlu : lower_bound ≤ upper_bound) :
    (lower_bound < norm3 v ∧ norm3 v < upper_bound →
      clip_norm v lower_bound upper_bound = v) ∧
    (norm3 v < lower_bound →
      clip_norm v lower_bound upper_bound =
        (lower_bound / norm3 v * v.1, lower_bound / norm3 v * v.2.1,
         lower_bound / norm3 v * v.2.2) ∧
      norm3 (clip_norm v lower_bound upper_bound) = lower_bound ∧
      0 < lower_bound / norm3 v) ∧
    (upper_bound < norm3 v →
      clip_norm v lower_bound upper_bound =
        (upper_bound / norm3 v * v.1, upper_bound / norm3 v * v.2.1,
         upper_bound / norm3 v * v.2.2) ∧
      norm3 (clip_norm v lower_bound upper_bound) = upper_bound ∧
      0 < upper_bound / norm3 v) ∧
    (norm3 v = upper_bound → clip_norm v lower_bound upper_bound = v) ∧
    (norm3 v = lower_bound →
      norm3 (clip_norm v lower_bound upper_bound) = upper_bound) := by
  have hn : 0 < norm3 v := norm3_pos v hv
  have hub : 0 < upper_bound := lt_of_lt_of_le hlb hlu
  refine ⟨?_, ?_, ?_, ?_, ?_⟩
  · intro h
    simp only [clip_norm]
    rw [if_pos h]
  · intro h
    have hne : ¬ (lower_bound < norm3 v ∧ norm3 v < upper_bound) :=
      fun hc => absurd hc.1 (not_lt_of_lt h)
    have heq : clip_norm v lower_bound upper_bound =
        (lower_bound / norm3 v * v.1, lower_bound / norm3 v * v.2.1,
         lower_bound / norm3 v * v.2.2) := by
      simp only [clip_norm]
      rw [if_neg hne, if_pos h, Prod.mk.injEq, Prod.mk.injEq]
      refine ⟨by ring, by ring, by ring⟩
    have hpos : 0 < lower_bound / norm3 v := div_pos hlb hn
    refine ⟨heq, ?_, hpos⟩
    rw [heq, norm3_scale _ v (le_of_lt hpos), div_mul_cancel₀ _ (ne_of_gt hn)]
  · intro h
    have hne : ¬ (lower_bound < norm3 v ∧ norm3 v < upper_bound) :=
      fun hc => absurd hc.2 (not_lt_of_lt h)
    have hne2 : ¬ norm3 v < lower_bound :=
      not_lt_of_lt (lt_of_le_of_lt hlu h)
    have heq : clip_norm v lower_bound upper_bound =
        (upper_bound / norm3 v * v.1, upper_bound / norm3 v * v.2.1,
         upper_bound / norm3 v * v.2.2) := by
      simp only [clip_norm]
      rw [if_neg hne, if_neg hne2, Prod.mk.injEq, Prod.mk.injEq]
      refine ⟨by ring, by ring, by ring⟩
    have hpos : 0 < upper_bound / norm3 v := div_pos hub hn
    refine ⟨heq, ?_, hpos⟩
    rw [heq, norm3_scale _ v (le_of_lt hpos), div_mul_cancel₀ _ (ne_of_gt hn)]
  · intro h
    have hne : ¬ (lower_bound < norm3 v ∧ norm3 v < upper_bound) :=
      fun hc => absurd hc.2 (by rw [h]; exact lt_irrefl _)
    have hne2 : ¬ norm3 v < lower_bound := by
      rw [h]; exact not_lt_of_le hlu
    simp only [clip_norm]
    rw [if_neg hne, if_neg hne2, h, Prod.mk.injEq, Prod.mk.injEq]
    have hu : upper_bound ≠ 0 := ne_of_gt hub
    refine ⟨by field_simp, by field_simp, by field_simp⟩
  · intro h
    have hne : ¬ (lower_bound < norm3 v ∧ norm3 v < upper_bound) :=
      fun hc => absurd hc.1 (by rw [h]; exact lt_irrefl _)
    have hne2 : ¬ norm3 v < lower_bound := by
      rw [h]; exact lt_irrefl _
    have heq : clip_norm v lower_bound upper_bound =
        (upper_bound / norm3 v * v.1, upper_bound / norm3 v * v.2.1,
         upper_bound / norm3 v * v.2.2) := by
      simp only [clip_norm]
      rw [if_neg hne, if_neg hne2, Prod.mk.injEq, Prod.mk.injEq]
      refine ⟨by ring, by ring, by ring⟩
    have hpos : 0 < upper_bound / norm3 v := div_pos hub hn
    rw [heq, norm3_scale _ v (le_of_lt hpos), div_mul_cancel₀ _ (ne_of_gt hn)]

/-- C4 witness: the concrete scenario of the spec, clip_norm((3,4,0), 1, 2):
the norm 5 exceeds the upper bound 2 and the result has norm exactly 2. -/
theorem clip_norm_cases_witness :
    ((3, 4, 0) : Vec3) ≠ 0 ∧ (0 : ℝ) < 1 ∧ (1 : ℝ) ≤ 2 ∧
    (2 : ℝ) < norm3 ((3, 4, 0) : Vec3) ∧
    norm3 (clip_norm ((3, 4, 0) : Vec3) 1 2) = 2 := by
  have hv : ((3, 4, 0) : Vec3) ≠ 0 := by
    norm_num [Prod.ext_iff]
  have h5 : norm3 ((3, 4, 0) : Vec3) = 5 := by
    unfold norm3
    norm_num
    rw [show (25 : ℝ) = 5 ^ 2 by norm_num]
    exact Real.sqrt_sq (by norm_num)
  have hgt : (2 : ℝ) < norm3 ((3, 4, 0) : Vec3) := by rw [h5]; norm_num
  exact ⟨hv, by norm_num, by norm_num,
    hgt, ((clip_norm_cases (3, 4, 0) 1 2 hv (by norm_num) (by norm_num)).2.2.1 hgt).2.1⟩

/-! Claim C8. -/

/-- Dividing any numpy float by a finite zero yields a non-finite value. -/
theorem NPF.div_fin_zero (x : NPF) : NPF.div x (NPF.fin 0) = NPF.nonfinite := by
  cases x <;> simp [NPF.div]

/-- C8 counterexample: normalize applied to the zero vector does not fail
visibly.  The source body is a plain `return vector / np.linalg.norm(vector)`
with no error path, and numpy float division by the zero norm yields nan
(0/0) after only a warning, so the call silently returns the fully
NaN-valued vector — refuting the claim that no NaN/Inf-valued vector is
silently returned. -/
theorem normalize_zero_returns_nan :
    normalizeNPF (NPF.fin 0, NPF.fin 0, NPF.fin 0) =
      (NPF.nonfinite, NPF.nonfinite, NPF.nonfinite) := by
  have h : normNPF (NPF.fin 0, NPF.fin 0, NPF.fin 0) = NPF.fin 0 := by
    simp [normNPF, NPF.mul, NPF.add, NPF.sqrt]
  simp [normalizeNPF, h, NPF.div]

/-- C8 amended: whenever the computed norm is exactly the finite value zero
(in particular on the zero vector), normalize silently returns a vector all
of whose components are non-finite (nan from 0/0); no error is raised, so
callers must guard before the call or test the result for finiteness. -/
theorem normalize_zero_norm_nonfinite (v : NPVec3) (h : normNPF v = NPF.fin 0) :
    normalizeNPF v = (NPF.nonfinite, NPF.nonfinite, NPF.nonfinite) := by
  unfold normalizeNPF
  rw [h, NPF.div_fin_zero, NPF.div_fin_zero, NPF.div_fin_zero]

/-- C8 witness: the amended statement applied to the zero vector. -/
theorem normalize_zero_norm_nonfinite_witness :
    normNPF (NPF.fin 0, NPF.fin 0, NPF.fin 0) = NPF.fin 0 ∧
    normalizeNPF (NPF.fin 0, NPF.fin 0, NPF.fin 0) =
      (NPF.nonfinite, NPF.nonfinite, NPF.nonfinite) := by
  have h : normNPF (NPF.fin 0, NPF.fin 0, NPF.fin 0) = NPF.fin 0 := by
    simp [normNPF, NPF.mul, NPF.add, NPF.sqrt]
  exact ⟨h, normalize_zero_norm_nonfinite _ h⟩

/-! Claim C3. -/

/-- C3: at the antiparallel pair vector_a = (0,0,1), vector_b = (0,0,-1) —
nonzero inputs whose normalized dot product is exactly -1 — make_rotation
takes the antiparallel branch and returns diag(1, 1, -1), whose determinant
is -1: a reflection, violating the claimed invariant that every returned
matrix has determinant +1 and never -1. -/
theorem make_rotation_antiparallel_reflection :
    make_rotation (0, 0, 1) (0, 0, -1) =
      some (Matrix.of ![![1, 0, 0], ![0, 1, 0], ![0, 0, -1]]) ∧
    (Matrix.of ![![1, 0, 0], ![0, 1, 0], ![0, 0, -1]] :
      Matrix (Fin 3) (Fin 3) ℝ).det = -1 := by
  constructor
  · have hna : norm3 ((0, 0, 1) : Vec3) = 1 := by
      unfold norm3
      norm_num
    have hnb : norm3 ((0, 0, -1) : Vec3) = 1 := by
      unfold norm3
      norm_num
    have hua : normalize ((0, 0, 1) : Vec3) = ((0 : ℝ), (0 : ℝ), (1 : ℝ)) := by
      simp [normalize, hna]
    have hub : normalize ((0, 0, -1) : Vec3) = ((0 : ℝ), (0 : ℝ), (-1 : ℝ)) := by
      simp [normalize, hnb]
    simp only [make_rotation, hua, hub]
    norm_num [dot3, isclose]
  · simp [Matrix.det_fin_three]

/-! Claim C5. -/

/-- C5: make_rotation returns the identity for identical nonzero inputs, and
more generally whenever the dot product of the two normalized inputs lies
within absolute tolerance 1e-4 of 1 (the code's isclose test, with the even
weaker tolerance 1e-4 + 1e-5, then selects the identity branch). -/
theorem make_rotation_parallel_identity :
    (∀ a : Vec3, a ≠ 0 → make_rotation a a = some 1) ∧
    (∀ a b : Vec3, |dot3 (normalize a) (normalize b) - 1| ≤ 1 / 10000 →
      make_rotation a b = some 1) := by
  have key : ∀ a b : Vec3, |dot3 (normalize a) (normalize b) - 1| ≤ 1 / 10000 →
      make_rotation a b = some 1 := by
    intro a b h
    have hcl : isclose (dot3 (normalize a) (normalize b)) 1 (1 / 10000) := by
      simp only [isclose, abs_one]
      linarith
    simp only [make_rotation]
    rw [if_pos hcl]
  refine ⟨fun a ha => key a a ?_, key⟩
  have h1 : dot3 (normalize a) (normalize a) = 1 := by
    have hu := normalize_unit a ha
    simp only [dot3]
    nlinarith [hu]
  rw [h1]
  norm_num

/-- C5 witness: both parts of the parallel-identity theorem at the concrete
nonzero input (1, 0, 0) (and the pair (1,0,0), (2,0,0), whose normalized
dot product is exactly 1). -/
theorem make_rotation_parallel_identity_witness :
    (((1, 0, 0) : Vec3) ≠ 0 ∧ make_rotation (1, 0, 0) (1, 0, 0) = some 1) ∧
    (|dot3 (normalize ((1, 0, 0) : Vec3)) (normalize ((2, 0, 0) : Vec3)) - 1| ≤ 1 / 10000 ∧
      make_rotation (1, 0, 0) (2, 0, 0) = some 1) := by
  have hv : ((1, 0, 0) : Vec3) ≠ 0 := by norm_num [Prod.ext_iff]
  have hn1 : norm3 ((1, 0, 0) : Vec3) = 1 := by
    unfold norm3
    norm_num
  have hn2 : norm3 ((2, 0, 0) : Vec3) = 2 := by
    unfold norm3
    norm_num
    rw [show (4 : ℝ) = 2 ^ 2 by norm_num]
    exact Real.sqrt_sq (by norm_num)
  have hnorm1 : normalize ((1, 0, 0) : Vec3) = ((1 : ℝ), (0 : ℝ), (0 : ℝ)) := by
    simp only [normalize]
    rw [hn1]
    norm_num
  have hnorm2 : normalize ((2, 0, 0) : Vec3) = ((1 : ℝ), (0 : ℝ), (0 : ℝ)) := by
    simp only [normalize]
    rw [hn2]
    norm_num
  have hd : |dot3 (normalize ((1, 0, 0) : Vec3)) (normalize ((2, 0, 0) : Vec3)) - 1| ≤
      1 / 10000 := by
    rw [hnorm1, hnorm2]
    simp [dot3]
  exact ⟨⟨hv, make_rotation_parallel_identity.1 (1, 0, 0) hv⟩,
    ⟨hd, make_rotation_parallel_identity.2 (1, 0, 0) (2, 0, 0) hd⟩⟩

/-! Claim C6. -/

/-- Determinant of the matrix built by the generic Rodrigues branch, as a
polynomial identity: det(I + K + k K²) = (1 - k n)² + n, where K is the skew
matrix of v and n the sum of squares of v. -/
theorem det_rodrigues_poly (v : Vec3) (k : ℝ) :
    (1 + skew_symmetric_cross v + k • skew_symmetric_cross v ^ 2).det =
      (1 - k * (v.1 ^ 2 + v.2.1 ^ 2 + v.2.2 ^ 2)) ^ 2 +
        (v.1 ^ 2 + v.2.1 ^ 2 + v.2.2 ^ 2) := by
  obtain ⟨v1, v2, v3⟩ := v
  rw [Matrix.det_fin_three]
  simp [skew_symmetric_cross, pow_two, Matrix.mul_apply, Fin.sum_univ_three,
    Matrix.one_apply]
  ring

/-- Lagrange identity on 3-vectors: the sum of squares of the cross product
equals the product of the sums of squares minus the squared dot product. -/
theorem lagrange3 (u w : Vec3) :
    (cross3 u w).1 ^ 2 + (cross3 u w).2.1 ^ 2 + (cross3 u w).2.2 ^ 2 =
      (u.1 ^ 2 + u.2.1 ^ 2 + u.2.2 ^ 2) * (w.1 ^ 2 + w.2.1 ^ 2 + w.2.2 ^ 2) -
        dot3 u w ^ 2 := by
  obtain ⟨a, b, c⟩ := u
  obtain ⟨d, e, f⟩ := w
  simp only [cross3, dot3]
  ring

/-- C6: for nonzero 3-component inputs make_rotation always returns a matrix.
In the generic branch the determinant of the Rodrigues matrix is exactly 1,
which is not below 0, so the reflection-correction branch — whose
out-of-bounds column write (R[:, 3] on a 3x3 array) is modelled as `none` —
is unreachable. -/
theorem make_rotation_no_index_error (a b : Vec3) (ha : a ≠ 0) (hb : b ≠ 0) :
    ∃ R, make_rotation a b = some R := by
  by_cases h1 : isclose (dot3 (normalize a) (normalize b)) 1 (1 / 10000)
  · refine ⟨1, ?_⟩
    simp only [make_rotation]
    rw [if_pos h1]
  by_cases h2 : isclose (dot3 (normalize a) (normalize b)) (-1) (1 / 10000)
  · refine ⟨Matrix.of ![![1, 0, 0], ![0, 1, 0], ![0, 0, -1]], ?_⟩
    simp only [make_rotation]
    rw [if_neg h1, if_pos h2]
  have hu := normalize_unit a ha
  have hw := normalize_unit b hb
  have hn : (cross3 (normalize a) (normalize b)).1 ^ 2 +
      (cross3 (normalize a) (normalize b)).2.1 ^ 2 +
      (cross3 (normalize a) (normalize b)).2.2 ^ 2 =
      1 - dot3 (normalize a) (normalize b) ^ 2 := by
    rw [lagrange3, hu, hw]
    ring
  have hc1 : dot3 (normalize a) (normalize b) ≠ 1 := by
    intro h
    apply h1
    rw [h]
    simp only [isclose, abs_one, sub_self, abs_zero]
    norm_num
  have hcm1 : dot3 (normalize a) (normalize b) ≠ -1 := by
    intro h
    apply h2
    rw [h]
    simp only [isclose, sub_self, abs_zero]
    norm_num
  have hsq : (0 : ℝ) ≤ (cross3 (normalize a) (normalize b)).1 ^ 2 +
      (cross3 (normalize a) (normalize b)).2.1 ^ 2 +
      (cross3 (normalize a) (normalize b)).2.2 ^ 2 := by positivity
  have hclt : dot3 (normalize a) (normalize b) ^ 2 < 1 := by
    rcases lt_or_eq_of_le (by nlinarith [hn, hsq] :
        dot3 (normalize a) (normalize b) ^ 2 ≤ 1) with h | h
    · exact h
    · exfalso
      have : (dot3 (normalize a) (normalize b) - 1) *
          (dot3 (normalize a) (normalize b) + 1) = 0 := by nlinarith [h]
      rcases mul_eq_zero.mp this with h' | h'
      · exact hc1 (by linarith)
      · exact hcm1 (by linarith)
  have hnpos : 0 < (cross3 (normalize a) (normalize b)).1 ^ 2 +
      (cross3 (normalize a) (normalize b)).2.1 ^ 2 +
      (cross3 (normalize a) (normalize b)).2.2 ^ 2 := by
    rw [hn]
    linarith
  have hs2 : norm3 (cross3 (normalize a) (normalize b)) ^ 2 =
      (cross3 (normalize a) (normalize b)).1 ^ 2 +
      (cross3 (normalize a) (normalize b)).2.1 ^ 2 +
      (cross3 (normalize a) (normalize b)).2.2 ^ 2 := sq_norm3 _
  have hdet : (1 + skew_symmetric_cross (cross3 (normalize a) (normalize b)) +
      ((1 - dot3 (normalize a) (normalize b)) /
        norm3 (cross3 (normalize a) (normalize b)) ^ 2) •
        skew_symmetric_cross (cross3 (normalize a) (normalize b)) ^ 2).det = 1 := by
    rw [det_rodrigues_poly, hs2, div_mul_cancel₀ _ (ne_of_gt hnpos), hn]
    ring
  have hlt : ¬ (1 + skew_symmetric_cross (cross3 (normalize a) (normalize b)) +
      ((1 - dot3 (normalize a) (normalize b)) /
        norm3 (cross3 (normalize a) (normalize b)) ^ 2) •
        skew_symmetric_cross (cross3 (normalize a) (normalize b)) ^ 2).det < 0 := by
    rw [hdet]
    norm_num
  refine ⟨1 + skew_symmetric_cross (cross3 (normalize a) (normalize b)) +
      ((1 - dot3 (normalize a) (normalize b)) /
        norm3 (cross3 (normalize a) (normalize b)) ^ 2) •
        skew_symmetric_cross (cross3 (normalize a) (normalize b)) ^ 2, ?_⟩
  simp only [make_rotation]
  rw [if_neg h1, if_neg h2, if_neg hlt]

/-- C6 witness: make_rotation succeeds at the nonzero pair (1,0,0), (0,1,0),
which reaches the generic Rodrigues branch. -/
theorem make_rotation_no_index_error_witness :
    ((1, 0, 0) : Vec3) ≠ 0 ∧ ((0, 1, 0) : Vec3) ≠ 0 ∧
    ∃ R, make_rotation (1, 0, 0) (0, 1, 0) = some R := by
  have h1 : ((1, 0, 0) : Vec3) ≠ 0 := by norm_num [Prod.ext_iff]
  have h2 : ((0, 1, 0) : Vec3) ≠ 0 := by norm_num [Prod.ext_iff]
  exact ⟨h1, h2, make_rotation_no_index_error _ _ h1 h2⟩

/-! Claim C1. -/

/-- C1: evaluation of quat_to_rotvec at the failing input q = (1, 0, 0, 1),
the quaternion of a 90 degree rotation about x.  The rotation angle computed
by the code is 2*arccos(1/sqrt 2) = pi/2, but because the code divides the
vector part by np.linalg.norm(q) — the norm of the whole renormalized
quaternion, which is 1 — rather than by the vector part's own norm, the
returned vector is (1/sqrt 2 * (pi/2), 0, 0) and its magnitude
pi/(2 sqrt 2) differs from the rotation angle pi/2 demanded by the claim. -/
theorem quat_to_rotvec_magnitude_bug :
    quat_to_rotvec (1, 0, 0, 1) = (1 / Real.sqrt 2 * (π / 2), 0, 0) ∧
    Real.arccos ((unit_vector (1, 0, 0, 1)).2.2.2) * 2 = π / 2 ∧
    norm3 (quat_to_rotvec (1, 0, 0, 1)) ≠ π / 2 := by
  have hsqrt2_pos : (0 : ℝ) < Real.sqrt 2 := Real.sqrt_pos.mpr (by norm_num)
  have hsq2 : Real.sqrt 2 ^ 2 = 2 := Real.sq_sqrt (by norm_num)
  have hn4 : norm4 ((1, 0, 0, 1) : Vec4) = Real.sqrt 2 := by
    unfold norm4
    norm_num
  have huv : unit_vector ((1, 0, 0, 1) : Vec4) =
      (1 / Real.sqrt 2, 0, 0, 1 / Real.sqrt 2) := by
    simp only [unit_vector]
    rw [hn4]
    norm_num
  have harc : Real.arccos (1 / Real.sqrt 2) = π / 4 := by
    have h12 : (1 : ℝ) / Real.sqrt 2 = Real.sqrt 2 / 2 := by
      rw [div_eq_div_iff (ne_of_gt hsqrt2_pos) (by norm_num : (2:ℝ) ≠ 0)]
      nlinarith [hsq2]
    rw [h12, ← Real.cos_pi_div_four]
    exact Real.arccos_cos (by positivity) (by linarith [Real.pi_pos])
  have hunit_norm : norm4 ((1 / Real.sqrt 2, 0, 0, 1 / Real.sqrt 2) : Vec4) = 1 := by
    unfold norm4
    rw [show (1 / Real.sqrt 2 : ℝ) ^ 2 + (0:ℝ) ^ 2 + (0:ℝ) ^ 2 +
        (1 / Real.sqrt 2 : ℝ) ^ 2 = 1 by
      rw [div_pow, one_pow, hsq2]
      norm_num]
    exact Real.sqrt_one
  have harc' : Real.arccos (Real.sqrt 2)⁻¹ = π / 4 := by
    rw [← one_div]
    exact harc
  have hmain : quat_to_rotvec (1, 0, 0, 1) = (1 / Real.sqrt 2 * (π / 2), 0, 0) := by
    simp only [quat_to_rotvec]
    rw [if_neg (by norm_num [isclose])]
    norm_num
    rw [huv]
    rw [hunit_norm]
    norm_num [harc']
    ring
  have harc2 : Real.arccos ((unit_vector (1, 0, 0, 1)).2.2.2) * 2 = π / 2 := by
    rw [huv]
    norm_num [harc']
    ring
  refine ⟨hmain, harc2, ?_⟩
  rw [hmain]
  have hx : (0 : ℝ) ≤ 1 / Real.sqrt 2 * (π / 2) := by positivity
  have hnorm : norm3 ((1 / Real.sqrt 2 * (π / 2), 0, 0) : Vec3) =
      1 / Real.sqrt 2 * (π / 2) := by
    unfold norm3
    norm_num
    exact Real.sqrt_sq (by positivity)
  rw [hnorm]
  intro hcontra
  have hne1 : 1 / Real.sqrt 2 ≠ 1 := by
    intro h
    have h2 : Real.sqrt 2 = 1 := by
      field_simp at h
      linarith
    rw [h2] at hsq2
    norm_num at hsq2
  apply hne1
  have hpi : (0 : ℝ) < π / 2 := by positivity
  exact mul_right_cancel₀ (ne_of_gt hpi)
    (by rw [hcontra, one_mul] : 1 / Real.sqrt 2 * (π / 2) = 1 * (π / 2))

/-! Claim C10. -/

/-- Reading below the old length is unaffected by an allocation. -/
theorem readH_alloc1 (h : Heap) (a : Arr) (r : Nat) (hr : r < h.length) :
    readH (allocH h a).1 r = readH h r := by
  simp only [allocH, readH]
  rw [List.getD_eq_getElem?_getD, List.getD_eq_getElem?_getD,
    List.getElem?_append, if_pos hr]

/-- Reading below the old length is unaffected by two allocations. -/
theorem readH_alloc_chain2 (h : Heap) (a1 a2 : Arr) (r : Nat) (hr : r < h.length) :
    readH (allocH (allocH h a1).1 a2).1 r = readH h r := by
  simp only [allocH, readH]
  rw [List.getD_eq_getElem?_getD, List.getD_eq_getElem?_getD,
    List.getElem?_append, if_pos (by simp; omega),
    List.getElem?_append, if_pos hr]

/-- Reading below the old length is unaffected by three allocations. -/
theorem readH_alloc_chain3 (h : Heap) (a1 a2 a3 : Arr) (r : Nat) (hr : r < h.length) :
    readH (allocH (allocH (allocH h a1).1 a2).1 a3).1 r = readH h r := by
  simp only [allocH, readH]
  rw [List.getD_eq_getElem?_getD, List.getD_eq_getElem?_getD,
    List.getElem?_append, if_pos (by simp; omega),
    List.getElem?_append, if_pos (by simp; omega),
    List.getElem?_append, if_pos hr]

/-- Reading below the old length is unaffected by four allocations. -/
theorem readH_alloc_chain4 (h : Heap) (a1 a2 a3 a4 : Arr) (r : Nat) (hr : r < h.length) :
    readH (allocH (allocH (allocH (allocH h a1).1 a2).1 a3).1 a4).1 r = readH h r := by
  simp only [allocH, readH]
  rw [List.getD_eq_getElem?_getD, List.getD_eq_getElem?_getD,
    List.getElem?_append, if_pos (by simp; omega),
    List.getElem?_append, if_pos (by simp; omega),
    List.getElem?_append, if_pos (by simp; omega),
    List.getElem?_append, if_pos hr]

/-- Shape of the heap built by rotate_vect_by_quat: three allocations, an
in-place write to the third (fresh) allocation, and a final allocation; all
reads below the initial length are unaffected. -/
theorem readH_rotate_shape (h : Heap) (a1 a2 a3 a4 a5 : Arr) (r : Nat)
    (hr : r < h.length) :
    readH (allocH (writeH (allocH (allocH (allocH h a1).1 a2).1 a3).1
      (allocH (allocH (allocH h a1).1 a2).1 a3).2 a4) a5).1 r = readH h r := by
  simp only [allocH, writeH, readH]
  rw [List.getD_eq_getElem?_getD, List.getD_eq_getElem?_getD,
    List.getElem?_append, if_pos (by simp; omega),
    List.getElem?_set_ne (by simp; omega),
    List.getElem?_append, if_pos (by simp; omega),
    List.getElem?_append, if_pos (by simp; omega),
    List.getElem?_append, if_pos hr]

/-- C10: no operation mutates a previously allocated array.  In the heap
model of the three functions named by the claim, every array reachable
through a reference that existed before the call — in particular the
argument arrays, whatever references are passed — holds exactly the same
values afterwards: rotate_vect_by_quat's only in-place update targets the
freshly allocated product array, quat_to_rotvec's sign flip allocates a new
negated array, and clip_norm only allocates (a copy in the pass-through
branch, temporaries and the result otherwise). -/
theorem no_argument_mutation :
    (∀ (h : Heap) (rv rq r : Nat), r < h.length →
      readH (rotate_vect_by_quat_heap h rv rq).1 r = readH h r) ∧
    (∀ (h : Heap) (rv : Nat) (lb ub : ℝ) (r : Nat), r < h.length →
      readH (clip_norm_heap h rv lb ub).1 r = readH h r) ∧
    (∀ (h : Heap) (rq r : Nat), r < h.length →
      readH (quat_to_rotvec_heap h rq).1 r = readH h r) := by
  refine ⟨?_, ?_, ?_⟩
  · intro h rv rq r hr
    simp only [rotate_vect_by_quat_heap]
    exact readH_rotate_shape h _ _ _ _ _ r hr
  · intro h rv lb ub r hr
    simp only [clip_norm_heap]
    split_ifs with h1 h2
    · exact readH_alloc1 h _ r hr
    · exact readH_alloc_chain2 h _ _ r hr
    · exact readH_alloc_chain2 h _ _ r hr
  · intro h rq r hr
    simp only [quat_to_rotvec_heap]
    split_ifs with h1 h2
    · exact readH_alloc1 h _ r hr
    · exact readH_alloc_chain4 h _ _ _ _ r hr
    · exact readH_alloc_chain3 h _ _ _ r hr

/-- C10 witness: on the concrete two-array heap holding the pure quaternion
(1,0,0,1) at reference 0 and the quaternion (0,0,1,1) at reference 1, all
three operations leave the array at reference 0 unchanged. -/
theorem no_argument_mutation_witness :
    0 < ([[(1 : ℝ), 0, 0, 1], [(0 : ℝ), 0, 1, 1]] : Heap).length ∧
    readH (rotate_vect_by_quat_heap [[(1 : ℝ), 0, 0, 1], [(0 : ℝ), 0, 1, 1]] 0 1).1 0 =
      readH [[(1 : ℝ), 0, 0, 1], [(0 : ℝ), 0, 1, 1]] 0 ∧
    readH (clip_norm_heap [[(1 : ℝ), 0, 0, 1], [(0 : ℝ), 0, 1, 1]] 0 1 2).1 0 =
      readH [[(1 : ℝ), 0, 0, 1], [(0 : ℝ), 0, 1, 1]] 0 ∧
    readH (quat_to_rotvec_heap [[(1 : ℝ), 0, 0, 1], [(0 : ℝ), 0, 1, 1]] 1).1 0 =
      readH [[(1 : ℝ), 0, 0, 1], [(0 : ℝ), 0, 1, 1]] 0 := by
  have hlen : 0 < ([[(1 : ℝ), 0, 0, 1], [(0 : ℝ), 0, 1, 1]] : Heap).length := by simp
  exact ⟨hlen, no_argument_mutation.1 _ 0 1 0 hlen,
    no_argument_mutation.2.1 _ 0 1 2 0 hlen,
    no_argument_mutation.2.2 _ 1 0 hlen⟩

end Geom
